import Mathlib

/-!
Verification of the question-processing and scoring pipeline of the quiz
application (`src/utils/api.ts`, `src/types/quiz.ts`, `src/app/page.tsx`).

Strings are modelled as `List Char`; JavaScript numbers carrying integer
values are modelled as `Int`/`Nat`, and the single fractional computation
(the score percentage) as `Rat` with `round` (JavaScript's `Math.round`
rounds half-integers up, which is Mathlib's `round`).  The ambient
`Math.random()` source is modelled as an explicit parameter: the draw for
loop index `i` of the Fisher-Yates shuffle is `g i % (i + 1)`, mirroring
`Math.floor(Math.random() * (i + 1))`, which is a uniform value in `[0, i]`.
-/

/-- Model of `QuizQuestion` from `src/types/quiz.ts`: a raw question as received from
the trivia API. -/
structure QuizQuestion where
  category : List Char
  type : List Char
  difficulty : List Char
  question : List Char
  correct_answer : List Char
  incorrect_answers : List (List Char)
deriving DecidableEq

/-- Model of `ProcessedQuestion` from `src/types/quiz.ts`: a question after decoding,
shuffling and metadata assignment.  `user_answer?: string` becomes
`Option (List Char)`. -/
structure ProcessedQuestion where
  id : Nat
  category : List Char
  type : List Char
  difficulty : List Char
  question : List Char
  correct_answer : List Char
  options : List (List Char)
  user_answer : Option (List Char)
  is_answered : Bool
  is_visited : Bool
deriving DecidableEq

/-- The fields of `QuizSession` (`src/types/quiz.ts`) that
`createQuizResults` reads: `user_email`, `questions`, `time_remaining` and
`total_questions`. -/
structure QuizSession where
  user_email : List Char
  questions : List ProcessedQuestion
  time_remaining : Int
  total_questions : Nat
deriving DecidableEq

/-- Model of `QuestionResult` from `src/types/quiz.ts`. -/
structure QuestionResult where
  question_id : Nat
  question : List Char
  user_answer : List Char
  correct_answer : List Char
  is_correct : Bool
  category : List Char
  difficulty : List Char
deriving DecidableEq

/-- Model of `QuizResults` from `src/types/quiz.ts`; `completion_date : Date` becomes
an integer timestamp supplied by the (modelled) clock. -/
structure QuizResults where
  user_email : List Char
  score : Int
  total_questions : Nat
  correct_answers : Nat
  incorrect_answers : Nat
  unanswered_questions : Nat
  time_taken : Int
  completion_date : Int
  question_results : List QuestionResult
deriving DecidableEq

/-- One global string substitution, the semantics of JavaScript
`text.replace(/pat/g, rep)` for a literal pattern `pat`: matches are found
left to right, non-overlapping, and scanning resumes after each replaced
match.  Fuel-indexed so that the recursion is structural; `replaceAll`
below supplies fuel `s.length`, which is always sufficient because every
step consumes at least one character. -/
def replaceAllGo (pat rep : List Char) : Nat → List Char → List Char
  | _, [] => []
  | 0, s => s
  | Nat.succ fuel, c :: rest =>
    if pat ≠ [] ∧ (c :: rest).take pat.length = pat then
      rep ++ replaceAllGo pat rep fuel ((c :: rest).drop pat.length)
    else
      c :: replaceAllGo pat rep fuel rest

/-- JavaScript `text.replace(/pat/g, rep)` for a literal pattern. -/
def replaceAll (pat rep s : List Char) : List Char :=
  replaceAllGo pat rep s.length s

/-- The fixed, ordered entity table of `decodeHtmlEntities`
(`src/utils/api.ts` lines 122-138), in source order: `&amp;` first. -/
def entityPairs : List (List Char × List Char) :=
  [("&amp;".data, "&".data),
   ("&lt;".data, "<".data),
   ("&gt;".data, ">".data),
   ("&quot;".data, "\"".data),
   ("&#039;".data, "'".data),
   ("&apos;".data, "'".data),
   ("&nbsp;".data, " ".data),
   ("&copy;".data, "©".data),
   ("&reg;".data, "®".data),
   ("&trade;".data, "™".data),
   ("&hellip;".data, "...".data),
   ("&mdash;".data, "—".data),
   ("&ndash;".data, "–".data),
   ("&lsquo;".data, "'".data),
   ("&rsquo;".data, "'".data),
   ("&ldquo;".data, "\"".data),
   ("&rdquo;".data, "\"".data)]

/-- Embedding of `decodeHtmlEntities` (`src/utils/api.ts`): the chain of seventeen global
replacements, applied in source order. -/
def decodeHtmlEntities (text : List Char) : List Char :=
  entityPairs.foldl (fun s pr => replaceAll pr.1 pr.2 s) text

/-- Swap the elements at positions `i` and `j` of a list (the
`[a[i], a[j]] = [a[j], a[i]]` step of `shuffleArray`).  Out-of-range
indices leave the list unchanged; `shuffleArray` only ever swaps in range. -/
def listSwap (l : List α) (i j : Nat) : List α :=
  if h : i < l.length ∧ j < l.length then
    (l.set i (l.get ⟨j, h.2⟩)).set j (l.get ⟨i, h.1⟩)
  else l

/-- The Fisher-Yates loop of `shuffleArray`, consuming one random draw per
iteration.  A draw list `[d_m, …, d_1]` performs, in order, the swaps at
loop indices `i = m, …, 1`; the swap partner at index `i` is `d_i`, which
`shuffleArray` supplies already reduced into `[0, i]`. -/
def fyList : List Nat → List α → List α
  | [], l => l
  | j :: tl, l => fyList tl (listSwap l (tl.length + 1) j)

/-- The list `[m, m-1, …, 1]` of loop indices of the Fisher-Yates `for` loop. -/
def descRange : Nat → List Nat
  | 0 => []
  | Nat.succ m => (m + 1) :: descRange m

/-- The draw list produced by the ambient random source `g`: at loop index
`i` the JavaScript code computes `Math.floor(Math.random() * (i + 1))`,
a uniform element of `[0, i]`, modelled as `g i % (i + 1)`. -/
def mkDraws (g : Nat → Nat) (m : Nat) : List Nat :=
  (descRange m).map (fun k => g k % (k + 1))

/-- Embedding of `shuffleArray` (`src/utils/api.ts`): Fisher-Yates shuffle of a copy of
the input, with loop index running from `length - 1` down to `1`, driven by
the random source `g`. -/
def shuffleArray (g : Nat → Nat) (array : List α) : List α :=
  fyList (mkDraws g (array.length - 1)) array

/-- Embedding of `processQuizQuestions` (`src/utils/api.ts`): decode HTML entities,
build the options list as correct answer followed by incorrect answers,
shuffle it, and attach metadata.  `g index` is the stream of random draws
the ambient source serves while question `index` is shuffled. -/
def processQuizQuestions (g : Nat → Nat → Nat) (questions : List QuizQuestion) :
    List ProcessedQuestion :=
  questions.mapIdx (fun index question =>
    let decodedQuestion := decodeHtmlEntities question.question
    let decodedCorrectAnswer := decodeHtmlEntities question.correct_answer
    let decodedIncorrectAnswers := question.incorrect_answers.map decodeHtmlEntities
    let options := decodedCorrectAnswer :: decodedIncorrectAnswers
    let shuffledOptions := shuffleArray (g index) options
    { id := index + 1
      category := decodeHtmlEntities question.category
      type := question.type
      difficulty := question.difficulty
      question := decodedQuestion
      correct_answer := decodedCorrectAnswer
      options := shuffledOptions
      user_answer := none
      is_answered := false
      is_visited := false })

/-- The JavaScript whitespace class `\s`. -/
def jsWhitespace (c : Char) : Bool :=
  c.toNat == 0x20 || c.toNat == 0x09 || c.toNat == 0x0a || c.toNat == 0x0b ||
  c.toNat == 0x0c || c.toNat == 0x0d || c.toNat == 0xa0 || c.toNat == 0x1680 ||
  (0x2000 ≤ c.toNat && c.toNat ≤ 0x200a) || c.toNat == 0x2028 ||
  c.toNat == 0x2029 || c.toNat == 0x202f || c.toNat == 0x205f ||
  c.toNat == 0x3000 || c.toNat == 0xfeff

/-- The character class `[^\s@]` of the email regex. -/
def emailChar (c : Char) : Bool :=
  !(jsWhitespace c) && !(c == '@')

/-- Embedding of `validateEmail` (`src/utils/api.ts`): `/^[^\s@]+@[^\s@]+\.[^\s@]+$/`.
Operationally: a nonempty maximal run of `[^\s@]` characters must be
followed by a literal `@`; everything after the `@` must again be `[^\s@]`
characters, among which some `.` occurs neither first nor last. -/
def validateEmail (s : List Char) : Bool :=
  match s.dropWhile emailChar with
  | a :: rest2 =>
      a == '@' && !(s.takeWhile emailChar).isEmpty && rest2.all emailChar &&
      ((rest2.drop 1).dropLast.contains '.')
  | [] => false

/-- The declarative reading of the email pattern, word for word from the
spec: one or more characters that are neither whitespace nor `@`, then `@`,
then one or more such characters, then `.`, then one or more such
characters. -/
def EmailPattern (s : List Char) : Prop :=
  ∃ u v w : List Char,
    s = u ++ '@' :: (v ++ '.' :: w) ∧ u ≠ [] ∧ v ≠ [] ∧ w ≠ [] ∧
    (∀ c ∈ u, jsWhitespace c = false ∧ c ≠ '@') ∧
    (∀ c ∈ v, jsWhitespace c = false ∧ c ≠ '@') ∧
    (∀ c ∈ w, jsWhitespace c = false ∧ c ≠ '@')

/-- Embedding of `calculateScore` (`src/utils/api.ts`): percentage over answered
questions only, `Math.round`ed; `0` when nothing is answered. -/
def calculateScore (questions : List ProcessedQuestion) : Int :=
  let answeredQuestions := questions.filter (fun q => q.is_answered)
  let correctAnswers :=
    answeredQuestions.filter (fun q => q.user_answer == some q.correct_answer)
  if answeredQuestions.length = 0 then 0
  else round (((correctAnswers.length : Rat) / (answeredQuestions.length : Rat)) * 100)

/-- The sentinel string recorded for unanswered questions. -/
def notAnswered : List Char := "Not answered".data

/-- Embedding of `q.user_answer || 'Not answered'`: JavaScript `||` falls through to the
sentinel when the answer is absent or the empty string (the only falsy
string). -/
def recordedAnswer (ua : Option (List Char)) : List Char :=
  match ua with
  | some a => if a = [] then notAnswered else a
  | none => notAnswered

/-- Embedding of `createQuizResults` (`src/utils/api.ts`): per-question results and
aggregate counts.  `now` models the `new Date()` completion timestamp;
`time_taken` reproduces the ternary
`session.time_remaining ? (30 * 60 - session.time_remaining) : 0`
(`0` is falsy in JavaScript). -/
def createQuizResults (now : Int) (session : QuizSession) : QuizResults :=
  let questionResults := session.questions.map (fun q =>
    { question_id := q.id
      question := q.question
      user_answer := recordedAnswer q.user_answer
      correct_answer := q.correct_answer
      is_correct := q.user_answer == some q.correct_answer
      category := q.category
      difficulty := q.difficulty : QuestionResult })
  { user_email := session.user_email
    score := calculateScore session.questions
    total_questions := session.total_questions
    correct_answers := (questionResults.filter (fun r => r.is_correct)).length
    incorrect_answers :=
      (questionResults.filter
        (fun r => !r.is_correct && !(r.user_answer == notAnswered))).length
    unanswered_questions :=
      (questionResults.filter (fun r => r.user_answer == notAnswered)).length
    time_taken := if session.time_remaining ≠ 0 then 30 * 60 - session.time_remaining else 0
    completion_date := now
    question_results := questionResults }

/-- The space of valid draw lists for a Fisher-Yates run with `m` swaps:
lists `[d_m, …, d_1]` with `d_i ∈ [0, i]`.  Its cardinality is `(m + 1)!`,
one draw list per permutation of an `(m + 1)`-element list. -/
def validDraws : Nat → Finset (List Nat)
  | 0 => {[]}
  | Nat.succ m =>
      (Finset.range (m + 2)).biUnion (fun j => (validDraws m).image (j :: ·))

example : decodeHtmlEntities "Tom &amp; Jerry &quot;Show&quot;".data
    = "Tom & Jerry \"Show\"".data := by decide

example : decodeHtmlEntities "&amp;lt;".data = "<".data := by decide

example : validateEmail "a@b.co".data = true := by decide
example : validateEmail "a@b".data = false := by decide
example : validateEmail "a b@c.com".data = false := by decide

example :
    processQuizQuestions (fun _ _ => 0)
      [⟨"Cat".data, "multiple".data, "easy".data, "Q1".data, "A".data,
        ["B".data, "C".data, "D".data]⟩]
      ≠ [] := by decide

/-! ### Global replacement: strings without a match are unchanged -/

theorem replaceAllGo_eq_self (pat rep : List Char) :
    ∀ (fuel : Nat) (s : List Char), ¬ pat <:+: s → replaceAllGo pat rep fuel s = s := by
  intro fuel
  induction fuel with
  | zero => intro s _; cases s <;> rfl
  | succ n ih =>
    intro s h
    cases s with
    | nil => rfl
    | cons c rest =>
      have hcond : ¬ (pat ≠ [] ∧ (c :: rest).take pat.length = pat) := by
        rintro ⟨-, htake⟩
        exact h (List.prefix_iff_eq_take.mpr htake.symm).isInfix
      simp only [replaceAllGo, if_neg hcond]
      have hrest : ¬ pat <:+: rest := fun hi =>
        h (List.infix_cons_iff.mpr (Or.inr hi))
      rw [ih rest hrest]

theorem replaceAll_eq_self (pat rep s : List Char)
    (h : ¬ pat <:+: s) : replaceAll pat rep s = s :=
  replaceAllGo_eq_self pat rep s.length s h

theorem foldl_replaceAll_eq_self :
    ∀ (prs : List (List Char × List Char)) (s : List Char),
      (∀ pr ∈ prs, ¬ pr.1 <:+: s) →
      prs.foldl (fun s pr => replaceAll pr.1 pr.2 s) s = s := by
  intro prs
  induction prs with
  | nil => intro s _; rfl
  | cons pr rest ih =>
    intro s hinf
    have h1 : replaceAll pr.1 pr.2 s = s :=
      replaceAll_eq_self _ _ _ (hinf pr (List.mem_cons_self pr rest))
    simp only [List.foldl_cons, h1]
    exact ih s (fun q hq => hinf q (List.mem_cons_of_mem pr hq))

/-- C5: entity decoding decodes the documented examples and leaves any
string containing no occurrence of one of the seventeen listed entities
(in particular an unknown entity such as `&foo;`) unchanged. -/
theorem decodeHtmlEntities_spec :
    decodeHtmlEntities "Tom &amp; Jerry &quot;Show&quot;".data
        = "Tom & Jerry \"Show\"".data ∧
    decodeHtmlEntities "&foo;".data = "&foo;".data ∧
    ∀ s : List Char, (∀ pr ∈ entityPairs, ¬ pr.1 <:+: s) →
      decodeHtmlEntities s = s := by
  refine ⟨by decide, by decide, ?_⟩
  intro s hs
  exact foldl_replaceAll_eq_self entityPairs s hs

theorem decodeHtmlEntities_spec_witness :
    (∀ pr ∈ entityPairs, ¬ pr.1 <:+: "plain text".data) ∧
    decodeHtmlEntities "plain text".data = "plain text".data :=
  ⟨by decide, decodeHtmlEntities_spec.2.2 "plain text".data (by decide)⟩

/-- C10: because `&amp;` is replaced first, a doubly-encoded entity is
fully decoded in one pass: `&amp;lt;` becomes `<`, not `&lt;`, and the same
holds for every entity later in the replacement chain. -/
theorem decodeHtmlEntities_double_decode :
    decodeHtmlEntities "&amp;lt;".data = "<".data ∧
    decodeHtmlEntities "&amp;lt;".data ≠ "&lt;".data ∧
    entityPairs.tail.Forall
      (fun pr => decodeHtmlEntities ("&amp;".data ++ pr.1.drop 1) = pr.2) := by
  decide

/-! ### C1: the score formula -/

/-- C1: `calculateScore` returns `round (100 * correct / answered)` where
`answered` counts questions with `is_answered` set and `correct` counts
those of them whose `user_answer` equals `correct_answer`; it returns `0`
when no question is answered. -/
theorem calculateScore_formula (qs : List ProcessedQuestion) :
    calculateScore qs =
      if qs.countP (fun q => q.is_answered) = 0 then 0
      else round ((100 : Rat) *
        (qs.countP (fun q => (q.user_answer == some q.correct_answer) && q.is_answered) : Rat) /
        (qs.countP (fun q => q.is_answered) : Rat)) := by
  have ha : (qs.filter (fun q => q.is_answered)).length
      = qs.countP (fun q => q.is_answered) :=
    (List.countP_eq_length_filter _ _).symm
  have hc : ((qs.filter (fun q => q.is_answered)).filter
        (fun q => q.user_answer == some q.correct_answer)).length
      = qs.countP (fun q => (q.user_answer == some q.correct_answer) && q.is_answered) := by
    rw [← List.countP_eq_length_filter, List.countP_filter]
  simp only [calculateScore, ha, hc]
  rcases Nat.eq_zero_or_pos (qs.countP (fun q => q.is_answered)) with h0 | hpos
  · simp [h0]
  · rw [if_neg (Nat.pos_iff_ne_zero.mp hpos), if_neg (Nat.pos_iff_ne_zero.mp hpos)]
    congr 1
    ring

/-! ### C9: results aggregation is deterministic up to the timestamp -/

/-- C9: two runs of `createQuizResults` on the same final session agree on
every field except `completion_date` (the score inside is computed by the
same pure `calculateScore`). -/
theorem createQuizResults_deterministic (t₁ t₂ : Int) (s : QuizSession) :
    (createQuizResults t₁ s).user_email = (createQuizResults t₂ s).user_email ∧
    (createQuizResults t₁ s).score = (createQuizResults t₂ s).score ∧
    (createQuizResults t₁ s).total_questions = (createQuizResults t₂ s).total_questions ∧
    (createQuizResults t₁ s).correct_answers = (createQuizResults t₂ s).correct_answers ∧
    (createQuizResults t₁ s).incorrect_answers = (createQuizResults t₂ s).incorrect_answers ∧
    (createQuizResults t₁ s).unanswered_questions = (createQuizResults t₂ s).unanswered_questions ∧
    (createQuizResults t₁ s).time_taken = (createQuizResults t₂ s).time_taken ∧
    (createQuizResults t₁ s).question_results = (createQuizResults t₂ s).question_results :=
  ⟨rfl, rfl, rfl, rfl, rfl, rfl, rfl, rfl⟩

/-! ### C6: time taken at submission -/

/-- A session submitted with the timer at zero. -/
def sessionAtTimeout : QuizSession :=
  { user_email := "user@example.com".data
    questions :=
      [{ id := 1, category := "General".data, type := "multiple".data,
         difficulty := "easy".data, question := "Q1".data,
         correct_answer := "A".data, options := ["A".data, "B".data],
         user_answer := some "A".data, is_answered := true, is_visited := true }]
    time_remaining := 0
    total_questions := 1 }

/-- C6 (code bug evidence): at `time_remaining = 0` the ternary
`session.time_remaining ? (30 * 60 - session.time_remaining) : 0` takes the
falsy branch, so `time_taken` is `0`, not the full `30 * 60 = 1800` second
budget the spec prescribes. -/
theorem createQuizResults_time_taken_at_zero :
    (createQuizResults 0 sessionAtTimeout).time_taken = 0 ∧
    (createQuizResults 0 sessionAtTimeout).time_taken ≠ 30 * 60 := by
  constructor
  · rfl
  · decide

/-! ### C3: result counts -/

theorem countP_partition (l : List α) (p q : α → Bool)
    (h : ∀ x ∈ l, ¬(p x = true ∧ q x = true)) :
    l.countP p + l.countP (fun x => !p x && !q x) + l.countP q = l.length := by
  induction l with
  | nil => rfl
  | cons a t ih =>
    have ha := h a (List.mem_cons_self a t)
    have ht := ih (fun x hx => h x (List.mem_cons_of_mem a hx))
    cases hp : p a <;> cases hq : q a
    · simp [List.countP_cons, hp, hq]; omega
    · simp [List.countP_cons, hp, hq]; omega
    · simp [List.countP_cons, hp, hq]; omega
    · exact absurd ⟨hp, hq⟩ ha

/-- A session whose (pathological) question has `'Not answered'` as its
literal correct answer, which the user selected. -/
def sessionSentinel : QuizSession :=
  { user_email := "u@e.co".data
    questions :=
      [{ id := 1, category := "Cat".data, type := "multiple".data,
         difficulty := "easy".data, question := "Q1".data,
         correct_answer := "Not answered".data,
         options := ["Not answered".data, "B".data],
         user_answer := some "Not answered".data, is_answered := true,
         is_visited := true }]
    time_remaining := 100
    total_questions := 1 }

/-- C3 counterexample: when the selected answer literally equals the
sentinel `'Not answered'`, the result is recorded as the sentinel *and*
counted correct, and `incorrect_answers` (0) differs from
`total − correct − unanswered` (= 1 − 1 − 1 = −1): the sentinel does
collide with real answer text. -/
theorem createQuizResults_sentinel_collision :
    (createQuizResults 0 sessionSentinel).correct_answers = 1 ∧
    (createQuizResults 0 sessionSentinel).unanswered_questions = 1 ∧
    (createQuizResults 0 sessionSentinel).incorrect_answers = 0 ∧
    sessionSentinel.questions.length = 1 ∧
    ((createQuizResults 0 sessionSentinel).question_results.all
      (fun r => r.is_correct && (r.user_answer == notAnswered))) = true ∧
    ¬(((createQuizResults 0 sessionSentinel).incorrect_answers : Int)
        = (sessionSentinel.questions.length : Int)
          - ((createQuizResults 0 sessionSentinel).correct_answers : Int)
          - ((createQuizResults 0 sessionSentinel).unanswered_questions : Int)) := by
  refine ⟨rfl, rfl, rfl, rfl, rfl, ?_⟩
  decide

/-- C3 amended: `correct_answers` counts raw-equality matches,
`unanswered_questions` counts results recorded as the sentinel, and the
recorded answer is the selected string unless it is absent or empty (then
the sentinel).  Provided no question is simultaneously counted correct and
recorded as the sentinel (which can happen, since the sentinel may collide
with real answer text), the three counts partition the questions, i.e.
`incorrect_answers = total − correct − unanswered`. -/
theorem createQuizResults_counts (now : Int) (s : QuizSession)
    (h : ∀ q ∈ s.questions,
      ¬(q.user_answer = some q.correct_answer ∧
        recordedAnswer q.user_answer = notAnswered)) :
    (createQuizResults now s).correct_answers
        = s.questions.countP (fun q => q.user_answer == some q.correct_answer) ∧
    (createQuizResults now s).unanswered_questions
        = s.questions.countP (fun q => recordedAnswer q.user_answer == notAnswered) ∧
    (createQuizResults now s).correct_answers
        + (createQuizResults now s).incorrect_answers
        + (createQuizResults now s).unanswered_questions = s.questions.length ∧
    List.Forall₂ (fun (q : ProcessedQuestion) (r : QuestionResult) =>
        r.user_answer = match q.user_answer with
          | some a => if a = [] then notAnswered else a
          | none => notAnswered)
      s.questions (createQuizResults now s).question_results := by
  have hcor : (createQuizResults now s).correct_answers
      = s.questions.countP (fun q => q.user_answer == some q.correct_answer) := by
    simp only [createQuizResults, ← List.countP_eq_length_filter, List.countP_map]
    rfl
  have hun : (createQuizResults now s).unanswered_questions
      = s.questions.countP (fun q => recordedAnswer q.user_answer == notAnswered) := by
    simp only [createQuizResults, ← List.countP_eq_length_filter, List.countP_map]
    rfl
  have hinc : (createQuizResults now s).incorrect_answers
      = s.questions.countP (fun q =>
          !(q.user_answer == some q.correct_answer)
            && !(recordedAnswer q.user_answer == notAnswered)) := by
    simp only [createQuizResults, ← List.countP_eq_length_filter, List.countP_map]
    rfl
  refine ⟨hcor, hun, ?_, ?_⟩
  · rw [hcor, hun, hinc]
    exact countP_partition s.questions _ _ (fun x hx => by
      have := h x hx
      simpa using this)
  · have hres : (createQuizResults now s).question_results
        = s.questions.map (fun q =>
          { question_id := q.id
            question := q.question
            user_answer := recordedAnswer q.user_answer
            correct_answer := q.correct_answer
            is_correct := q.user_answer == some q.correct_answer
            category := q.category
            difficulty := q.difficulty : QuestionResult }) := rfl
    rw [hres, List.forall₂_map_right_iff, List.forall₂_same]
    intro q _
    cases q.user_answer <;> rfl

/-- A two-question session: first answered correctly, second unanswered. -/
def sessionSmall : QuizSession :=
  { user_email := "a@b.co".data
    questions :=
      [{ id := 1, category := "Cat".data, type := "multiple".data,
         difficulty := "easy".data, question := "Q1".data,
         correct_answer := "A".data, options := ["A".data, "B".data],
         user_answer := some "A".data, is_answered := true, is_visited := true },
       { id := 2, category := "Cat".data, type := "multiple".data,
         difficulty := "easy".data, question := "Q2".data,
         correct_answer := "C".data, options := ["C".data, "D".data],
         user_answer := none, is_answered := false, is_visited := true }]
    time_remaining := 60
    total_questions := 2 }

theorem createQuizResults_counts_witness :
    (∀ q ∈ sessionSmall.questions,
      ¬(q.user_answer = some q.correct_answer ∧
        recordedAnswer q.user_answer = notAnswered)) ∧
    ((createQuizResults 7 sessionSmall).correct_answers
        = sessionSmall.questions.countP (fun q => q.user_answer == some q.correct_answer) ∧
     (createQuizResults 7 sessionSmall).unanswered_questions
        = sessionSmall.questions.countP
            (fun q => recordedAnswer q.user_answer == notAnswered) ∧
     (createQuizResults 7 sessionSmall).correct_answers
        + (createQuizResults 7 sessionSmall).incorrect_answers
        + (createQuizResults 7 sessionSmall).unanswered_questions
        = sessionSmall.questions.length ∧
     List.Forall₂ (fun (q : ProcessedQuestion) (r : QuestionResult) =>
        r.user_answer = match q.user_answer with
          | some a => if a = [] then notAnswered else a
          | none => notAnswered)
      sessionSmall.questions (createQuizResults 7 sessionSmall).question_results) :=
  ⟨by decide, createQuizResults_counts 7 sessionSmall (by decide)⟩

/-! ### C4: shape of the processed question list -/

/-- C4: `processQuizQuestions` preserves length and relative order, assigns
ids `1, 2, …, N` in input order, and initializes `user_answer` to absent
and both flags to `false`; the `i`-th output is derived from the `i`-th
input by entity decoding. -/
theorem processQuizQuestions_shape (g : Nat → Nat → Nat) (qs : List QuizQuestion) :
    (processQuizQuestions g qs).length = qs.length ∧
    ∀ i p, (processQuizQuestions g qs)[i]? = some p →
      ∃ q, qs[i]? = some q ∧
        p.id = i + 1 ∧ p.user_answer = none ∧ p.is_answered = false ∧
        p.is_visited = false ∧
        p.question = decodeHtmlEntities q.question ∧
        p.correct_answer = decodeHtmlEntities q.correct_answer ∧
        p.category = decodeHtmlEntities q.category ∧
        p.type = q.type ∧ p.difficulty = q.difficulty := by
  constructor
  · simp [processQuizQuestions]
  · intro i p hp
    rw [processQuizQuestions, List.getElem?_mapIdx] at hp
    cases hq : qs[i]? with
    | none => rw [hq] at hp; exact absurd hp (by simp)
    | some q =>
      rw [hq] at hp
      simp only [Option.map_some', Option.some.injEq] at hp
      exact ⟨q, rfl, by rw [← hp], by rw [← hp], by rw [← hp], by rw [← hp],
        by rw [← hp], by rw [← hp], by rw [← hp], by rw [← hp], by rw [← hp]⟩

/-- A raw question with no incorrect answers, so its option list is a
singleton and the shuffle is the identity. -/
def rawQ0 : QuizQuestion :=
  { category := "Cat".data, type := "multiple".data, difficulty := "easy".data,
    question := "Q1".data, correct_answer := "A".data, incorrect_answers := [] }

/-- The processed form of `rawQ0` at index 0. -/
def procQ0 : ProcessedQuestion :=
  { id := 1, category := "Cat".data, type := "multiple".data,
    difficulty := "easy".data, question := "Q1".data,
    correct_answer := "A".data, options := ["A".data], user_answer := none,
    is_answered := false, is_visited := false }

theorem processQuizQuestions_shape_witness :
    ((processQuizQuestions (fun _ _ => 0) [rawQ0])[0]? = some procQ0) ∧
    (∃ q, ([rawQ0] : List QuizQuestion)[0]? = some q ∧
      procQ0.id = 0 + 1 ∧ procQ0.user_answer = none ∧
      procQ0.is_answered = false ∧ procQ0.is_visited = false ∧
      procQ0.question = decodeHtmlEntities q.question ∧
      procQ0.correct_answer = decodeHtmlEntities q.correct_answer ∧
      procQ0.category = decodeHtmlEntities q.category ∧
      procQ0.type = q.type ∧ procQ0.difficulty = q.difficulty) :=
  ⟨by decide, (processQuizQuestions_shape (fun _ _ => 0) [rawQ0]).2 0 procQ0 (by decide)⟩

/-! ### Shuffle machinery: swaps are permutations -/

theorem listSwap_length (l : List α) (i j : Nat) :
    (listSwap l i j).length = l.length := by
  unfold listSwap
  split <;> simp

theorem cons_set_perm :
    ∀ (t : List α) (k : Nat) (hk : k < t.length) (x : α),
      (t.get ⟨k, hk⟩ :: t.set k x).Perm (x :: t) := by
  intro t
  induction t with
  | nil => intro k hk; cases hk
  | cons b s ih =>
    intro k hk x
    cases k with
    | zero => exact List.Perm.swap x b s
    | succ k' =>
      have hk' : k' < s.length := Nat.lt_of_succ_lt_succ hk
      have h1 : ((b :: s).get ⟨k' + 1, hk⟩ :: (b :: s).set (k' + 1) x)
          = s.get ⟨k', hk'⟩ :: b :: s.set k' x := rfl
      rw [h1]
      exact ((List.Perm.swap b (s.get ⟨k', hk'⟩) (s.set k' x)).trans
        ((ih k' hk' x).cons b)).trans (List.Perm.swap x b s)

theorem set_set_perm :
    ∀ (l : List α) (i j : Nat) (hi : i < l.length) (hj : j < l.length),
      ((l.set i (l.get ⟨j, hj⟩)).set j (l.get ⟨i, hi⟩)).Perm l := by
  intro l
  induction l with
  | nil => intro i j hi; cases hi
  | cons a t ih =>
    intro i j hi hj
    cases i with
    | zero =>
      cases j with
      | zero => simp
      | succ j' =>
        have hj' : j' < t.length := Nat.lt_of_succ_lt_succ hj
        exact cons_set_perm t j' hj' a
    | succ i' =>
      have hi' : i' < t.length := Nat.lt_of_succ_lt_succ hi
      cases j with
      | zero => exact cons_set_perm t i' hi' a
      | succ j' =>
        have hj' : j' < t.length := Nat.lt_of_succ_lt_succ hj
        exact (ih i' j' hi' hj').cons a

theorem listSwap_perm (l : List α) (i j : Nat) : (listSwap l i j).Perm l := by
  unfold listSwap
  split
  case isTrue h => exact set_set_perm l i j h.1 h.2
  case isFalse => exact List.Perm.refl l

theorem fyList_perm : ∀ (js : List Nat) (l : List α), (fyList js l).Perm l := by
  intro js
  induction js with
  | nil => intro l; exact List.Perm.refl l
  | cons j tl ih =>
    intro l
    exact (ih (listSwap l (tl.length + 1) j)).trans (listSwap_perm l _ j)

theorem shuffleArray_perm (g : Nat → Nat) (l : List α) :
    (shuffleArray g l).Perm l :=
  fyList_perm (mkDraws g (l.length - 1)) l

theorem shuffleArray_length (g : Nat → Nat) (l : List α) :
    (shuffleArray g l).length = l.length :=
  (shuffleArray_perm g l).length_eq

theorem shuffleArray_count [BEq α] (g : Nat → Nat) (l : List α) (a : α) :
    (shuffleArray g l).count a = l.count a :=
  (shuffleArray_perm g l).countP_eq (· == a)

/-! ### C2: the options list -/

/-- A raw question whose incorrect answers contain a duplicate of the
correct answer. -/
def rawDup : QuizQuestion :=
  { category := "Cat".data, type := "multiple".data, difficulty := "easy".data,
    question := "Q1".data, correct_answer := "A".data,
    incorrect_answers := ["A".data, "B".data, "C".data] }

/-- C2 counterexample: when an incorrect answer equals the correct answer,
the decoded correct answer occurs *twice* in the options, not exactly once
as claimed: nothing deduplicates the option list. -/
theorem processQuizQuestions_options_duplicate :
    ((processQuizQuestions (fun _ _ => 0) [rawDup])[0]?).map
        (fun p => p.options.count p.correct_answer) = some 2 ∧ (2 : Nat) ≠ 1 := by
  constructor
  · decide
  · decide

/-- C2 amended: every processed question has
`options.length = 1 + incorrect_answers.length`, and the decoded correct
answer occurs `1 + k` times in `options`, where `k` is the number of
decoded incorrect answers equal to it — so at least once, and exactly once
when no decoded incorrect answer collides with the decoded correct
answer. -/
theorem processQuizQuestions_options (g : Nat → Nat → Nat) (qs : List QuizQuestion) :
    ∀ (i : Nat) (p : ProcessedQuestion), (processQuizQuestions g qs)[i]? = some p →
      ∃ q : QuizQuestion, qs[i]? = some q ∧
        p.options.length = 1 + q.incorrect_answers.length ∧
        p.options.count (decodeHtmlEntities q.correct_answer)
          = 1 + (q.incorrect_answers.map decodeHtmlEntities).count
              (decodeHtmlEntities q.correct_answer) ∧
        1 ≤ p.options.count (decodeHtmlEntities q.correct_answer) ∧
        (decodeHtmlEntities q.correct_answer ∉ q.incorrect_answers.map decodeHtmlEntities →
          p.options.count (decodeHtmlEntities q.correct_answer) = 1) := by
  intro i p hp
  rw [processQuizQuestions, List.getElem?_mapIdx] at hp
  cases hq : qs[i]? with
  | none => rw [hq] at hp; exact absurd hp (by simp)
  | some q =>
    rw [hq] at hp
    simp only [Option.map_some', Option.some.injEq] at hp
    refine ⟨q, rfl, ?_, ?_, ?_, ?_⟩
    · rw [← hp]
      show (shuffleArray (g i)
        (decodeHtmlEntities q.correct_answer
          :: q.incorrect_answers.map decodeHtmlEntities)).length = _
      rw [shuffleArray_length]
      simp [Nat.add_comm]
    · rw [← hp]
      show (shuffleArray (g i)
        (decodeHtmlEntities q.correct_answer
          :: q.incorrect_answers.map decodeHtmlEntities)).count _ = _
      rw [shuffleArray_count, List.count_cons_self, Nat.add_comm]
    · rw [← hp]
      show 1 ≤ (shuffleArray (g i)
        (decodeHtmlEntities q.correct_answer
          :: q.incorrect_answers.map decodeHtmlEntities)).count _
      rw [shuffleArray_count, List.count_cons_self]
      omega
    · intro hnm
      rw [← hp]
      show (shuffleArray (g i)
        (decodeHtmlEntities q.correct_answer
          :: q.incorrect_answers.map decodeHtmlEntities)).count _ = 1
      rw [shuffleArray_count, List.count_cons_self, List.count_eq_zero.mpr hnm]

theorem processQuizQuestions_options_witness :
    ((processQuizQuestions (fun _ _ => 0) [rawQ0])[0]? = some procQ0) ∧
    (∃ q, ([rawQ0] : List QuizQuestion)[0]? = some q ∧
      procQ0.options.length = 1 + q.incorrect_answers.length ∧
      procQ0.options.count (decodeHtmlEntities q.correct_answer)
        = 1 + (q.incorrect_answers.map decodeHtmlEntities).count
            (decodeHtmlEntities q.correct_answer) ∧
      1 ≤ procQ0.options.count (decodeHtmlEntities q.correct_answer) ∧
      (decodeHtmlEntities q.correct_answer ∉ q.incorrect_answers.map decodeHtmlEntities →
        procQ0.options.count (decodeHtmlEntities q.correct_answer) = 1)) :=
  ⟨by decide, processQuizQuestions_options (fun _ _ => 0) [rawQ0] 0 procQ0 (by decide)⟩

/-! ### C8: the email validator -/

theorem emailChar_iff (c : Char) :
    emailChar c = true ↔ jsWhitespace c = false ∧ c ≠ '@' := by
  simp [emailChar]

/-- C8: `validateEmail` accepts exactly the strings matching the spec
pattern: one or more non-whitespace non-`@` characters, `@`, one or more
such characters, `.`, one or more such characters — in particular the
three documented examples. -/
theorem validateEmail_spec :
    (∀ s : List Char, validateEmail s = true ↔ EmailPattern s) ∧
    validateEmail "a@b.co".data = true ∧
    validateEmail "a@b".data = false ∧
    validateEmail "a b@c.com".data = false := by
  refine ⟨?_, by decide, by decide, by decide⟩
  intro s
  constructor
  · intro h
    unfold validateEmail at h
    cases hdw : s.dropWhile emailChar with
    | nil => rw [hdw] at h; exact absurd h (by simp)
    | cons a rest2 =>
      rw [hdw] at h
      simp only [Bool.and_eq_true, beq_iff_eq, Bool.not_eq_true',
        List.isEmpty_eq_false, List.all_eq_true] at h
      obtain ⟨⟨⟨ha, hu⟩, hall⟩, hdot⟩ := h
      have hdotmem : '.' ∈ (rest2.drop 1).dropLast := List.elem_iff.mp hdot
      cases rest2 with
      | nil => simp at hdotmem
      | cons b t =>
        simp only [List.drop_succ_cons, List.drop_zero] at hdotmem
        rcases List.eq_nil_or_concat t with rfl | ⟨t2, x, rfl⟩
        · simp at hdotmem
        · simp only [List.concat_eq_append] at hdotmem hall
          rw [List.dropLast_concat] at hdotmem
          obtain ⟨l1, l2, rfl⟩ := List.append_of_mem hdotmem
          refine ⟨s.takeWhile emailChar, b :: l1, l2 ++ [x], ?_, hu,
            by simp, by simp, ?_, ?_, ?_⟩
          · conv_lhs => rw [← List.takeWhile_append_dropWhile emailChar s]
            rw [hdw, ha]
            simp
          · intro c hc
            exact (emailChar_iff c).mp (List.mem_takeWhile_imp hc)
          · intro c hc
            refine (emailChar_iff c).mp (hall c ?_)
            simp only [List.mem_cons, List.mem_append] at hc ⊢
            tauto
          · intro c hc
            refine (emailChar_iff c).mp (hall c ?_)
            simp only [List.mem_cons, List.mem_append, List.mem_singleton] at hc ⊢
            tauto
  · rintro ⟨u, v, w, hs, hu, hv, hw, hcu, hcv, hcw⟩
    have hue : ∀ c ∈ u, emailChar c = true :=
      fun c hc => (emailChar_iff c).mpr (hcu c hc)
    have hve : ∀ c ∈ v, emailChar c = true :=
      fun c hc => (emailChar_iff c).mpr (hcv c hc)
    have hwe : ∀ c ∈ w, emailChar c = true :=
      fun c hc => (emailChar_iff c).mpr (hcw c hc)
    have hat : emailChar '@' = false := by decide
    have hdw : s.dropWhile emailChar = '@' :: (v ++ '.' :: w) := by
      rw [hs, List.dropWhile_append]
      have h1 : (u.dropWhile emailChar).isEmpty = true :=
        List.isEmpty_iff.mpr (List.dropWhile_eq_nil_iff.mpr hue)
      rw [h1]
      simp only [if_true]
      exact List.dropWhile_cons_of_neg (by simp [hat])
    have htw : (s.takeWhile emailChar).isEmpty = false := by
      obtain ⟨c, u2, rfl⟩ := List.exists_cons_of_ne_nil hu
      rw [hs]
      simp only [List.cons_append]
      rw [List.takeWhile_cons_of_pos (hue c (List.mem_cons_self c u2))]
      rfl
    unfold validateEmail
    rw [hdw]
    simp only [Bool.and_eq_true, Bool.not_eq_true', beq_iff_eq, List.all_eq_true]
    refine ⟨⟨⟨trivial, htw⟩, ?_⟩, ?_⟩
    · intro c hc
      rcases List.mem_append.mp hc with hcv2 | hcw2
      · exact hve c hcv2
      · rcases List.mem_cons.mp hcw2 with rfl | hcw3
        · decide
        · exact hwe c hcw3
    · obtain ⟨vh, vt, rfl⟩ := List.exists_cons_of_ne_nil hv
      simp only [List.cons_append, List.drop_succ_cons, List.drop_zero]
      have hd : (vt ++ '.' :: w).dropLast = vt ++ '.' :: w.dropLast := by
        rw [List.dropLast_append]
        simp [List.dropLast_cons_of_ne_nil hw]
      rw [hd]
      exact List.elem_iff.mpr (List.mem_append_right vt (List.mem_cons_self '.' _))

/-! ### C7: Fisher-Yates produces uniformly distributed permutations.
Each draw list in `validDraws m` corresponds to exactly one execution of
the shuffle loop, and distinct draw lists are equally likely when each
draw is uniform on its range. -/

theorem mem_validDraws_cons {m j : Nat} {tl : List Nat} :
    j :: tl ∈ validDraws (m + 1) ↔ j < m + 2 ∧ tl ∈ validDraws m := by
  simp only [validDraws, Finset.mem_biUnion, Finset.mem_range, Finset.mem_image]
  constructor
  · rintro ⟨a, ha, b, hb, hcons⟩
    obtain ⟨rfl, rfl⟩ : a = j ∧ b = tl := by
      injection hcons with h1 h2
      exact ⟨h1, h2⟩
    exact ⟨ha, hb⟩
  · rintro ⟨hj, htl⟩
    exact ⟨j, hj, tl, htl, rfl⟩

theorem nil_not_mem_validDraws_succ {m : Nat} : ¬ ([] ∈ validDraws (m + 1)) := by
  simp [validDraws, Finset.mem_biUnion, Finset.mem_image]

theorem validDraws_length :
    ∀ (m : Nat) (js : List Nat), js ∈ validDraws m → js.length = m := by
  intro m
  induction m with
  | zero =>
    intro js h
    simp only [validDraws, Finset.mem_singleton] at h
    simp [h]
  | succ m ih =>
    intro js h
    cases js with
    | nil => exact absurd h nil_not_mem_validDraws_succ
    | cons j tl =>
      obtain ⟨-, htl⟩ := mem_validDraws_cons.mp h
      simp [ih tl htl]

theorem validDraws_card : ∀ m : Nat, (validDraws m).card = Nat.factorial (m + 1) := by
  intro m
  induction m with
  | zero => rfl
  | succ m ih =>
    have hdisj : ∀ x ∈ Finset.range (m + 2), ∀ y ∈ Finset.range (m + 2), x ≠ y →
        Disjoint ((validDraws m).image (x :: ·)) ((validDraws m).image (y :: ·)) := by
      intro x _ y _ hxy
      refine Finset.disjoint_left.mpr ?_
      rintro a hax hay
      simp only [Finset.mem_image] at hax hay
      obtain ⟨b1, -, hb1⟩ := hax
      obtain ⟨b2, -, hb2⟩ := hay
      apply hxy
      rw [← hb1] at hb2
      injection hb2 with h1 h2
      exact h1.symm
    show ((Finset.range (m + 2)).biUnion (fun j => (validDraws m).image (j :: ·))).card = _
    rw [Finset.card_biUnion hdisj]
    have hsum : ∀ j ∈ Finset.range (m + 2),
        ((validDraws m).image (j :: ·)).card = Nat.factorial (m + 1) := by
      intro j _
      rw [Finset.card_image_of_injective _ List.cons_injective, ih]
    rw [Finset.sum_congr rfl hsum, Finset.sum_const, smul_eq_mul, Finset.card_range]
    conv_rhs => rw [Nat.factorial_succ]

theorem mkDraws_mem_validDraws (g : Nat → Nat) : ∀ m, mkDraws g m ∈ validDraws m := by
  intro m
  induction m with
  | zero => simp [mkDraws, descRange, validDraws]
  | succ m ih =>
    have hstep : mkDraws g (m + 1) = (g (m + 1) % (m + 2)) :: mkDraws g m := rfl
    rw [hstep]
    exact mem_validDraws_cons.mpr ⟨Nat.mod_lt _ (by omega), ih⟩

theorem mkDraws_congr : ∀ (m : Nat) (g1 g2 : Nat → Nat),
    (∀ k, 1 ≤ k → k ≤ m → g1 k = g2 k) → mkDraws g1 m = mkDraws g2 m := by
  intro m
  induction m with
  | zero => intro g1 g2 _; rfl
  | succ m ih =>
    intro g1 g2 h
    have h1 : mkDraws g1 (m + 1) = (g1 (m + 1) % (m + 2)) :: mkDraws g1 m := rfl
    have h2 : mkDraws g2 (m + 1) = (g2 (m + 1) % (m + 2)) :: mkDraws g2 m := rfl
    rw [h1, h2, h (m + 1) (by omega) (by omega),
      ih g1 g2 (fun k hk1 hk2 => h k hk1 (by omega))]

theorem mkDraws_surj : ∀ (m : Nat) (js : List Nat), js ∈ validDraws m →
    mkDraws (fun k => js.getD (m - k) 0) m = js := by
  intro m
  induction m with
  | zero =>
    intro js h
    simp only [validDraws, Finset.mem_singleton] at h
    simp [h, mkDraws, descRange]
  | succ m ih =>
    intro js h
    cases js with
    | nil => exact absurd h nil_not_mem_validDraws_succ
    | cons j tl =>
      obtain ⟨hj, htl⟩ := mem_validDraws_cons.mp h
      have h0 : mkDraws (fun k => (j :: tl).getD (m + 1 - k) 0) (m + 1)
          = ((j :: tl).getD (m + 1 - (m + 1)) 0 % (m + 2))
            :: mkDraws (fun k => (j :: tl).getD (m + 1 - k) 0) m := rfl
      rw [h0]
      congr 1
      · rw [Nat.sub_self]
        show j % (m + 2) = j
        exact Nat.mod_eq_of_lt hj
      · rw [mkDraws_congr m _ (fun k => tl.getD (m - k) 0)
          (fun k hk1 hk2 => by
            show (j :: tl).getD (m + 1 - k) 0 = tl.getD (m - k) 0
            have hsub : m + 1 - k = (m - k) + 1 := by omega
            rw [hsub]
            rfl)]
        exact ih tl htl

theorem fyList_length (js : List Nat) (l : List α) :
    (fyList js l).length = l.length :=
  (fyList_perm js l).length_eq

theorem listSwap_append (l1 l2 : List α) (i j : Nat)
    (hi : i < l1.length) (hj : j < l1.length) :
    listSwap (l1 ++ l2) i j = listSwap l1 i j ++ l2 := by
  unfold listSwap
  have hi2 : i < (l1 ++ l2).length := by simp; omega
  have hj2 : j < (l1 ++ l2).length := by simp; omega
  rw [dif_pos ⟨hi2, hj2⟩, dif_pos ⟨hi, hj⟩]
  simp only [List.get_eq_getElem]
  rw [List.getElem_append_left hj, List.getElem_append_left hi]
  rw [List.set_append_left _ _ hi]
  rw [List.set_append_left _ _ (by rw [List.length_set]; exact hj)]

theorem fyList_append : ∀ (m : Nat) (js : List Nat) (l1 : List α) (x : α),
    js ∈ validDraws m → m < l1.length →
    fyList js (l1 ++ [x]) = fyList js l1 ++ [x] := by
  intro m
  induction m with
  | zero =>
    intro js l1 x h _
    simp only [validDraws, Finset.mem_singleton] at h
    subst h
    rfl
  | succ m ih =>
    intro js l1 x h hlen
    cases js with
    | nil => exact absurd h nil_not_mem_validDraws_succ
    | cons j tl =>
      obtain ⟨hj, htl⟩ := mem_validDraws_cons.mp h
      have hm : tl.length = m := validDraws_length m tl htl
      show fyList tl (listSwap (l1 ++ [x]) (tl.length + 1) j)
          = fyList tl (listSwap l1 (tl.length + 1) j) ++ [x]
      rw [hm]
      rw [listSwap_append l1 [x] (m + 1) j (by omega) (by omega)]
      exact ih tl (listSwap l1 (m + 1) j) x htl (by rw [listSwap_length]; omega)

theorem listSwap_last (l : List α) (m j : Nat) (hl : l.length = m + 2) (hj : j < m + 2) :
    listSwap l (m + 1) j
      = (listSwap l (m + 1) j).take (m + 1) ++ [l.get ⟨j, by omega⟩] := by
  have hget : (listSwap l (m + 1) j).get ⟨m + 1, by rw [listSwap_length]; omega⟩
      = l.get ⟨j, by omega⟩ := by
    simp only [List.get_eq_getElem]
    unfold listSwap
    split
    case isFalse hout => exact absurd ⟨by omega, by omega⟩ hout
    case isTrue hin =>
      simp only [List.get_eq_getElem]
      by_cases hj2 : j = m + 1
      · subst hj2
        exact List.getElem_set_self _
      · rw [List.getElem_set_ne hj2, List.getElem_set_self]
  have hdrop : (listSwap l (m + 1) j).drop (m + 1)
      = [(listSwap l (m + 1) j).get ⟨m + 1, by rw [listSwap_length]; omega⟩] := by
    rw [List.drop_eq_getElem_cons (by rw [listSwap_length]; omega)]
    rw [List.drop_eq_nil_of_le (by rw [listSwap_length]; omega)]
    simp [List.get_eq_getElem]
  conv_lhs => rw [← List.take_append_drop (m + 1) (listSwap l (m + 1) j)]
  rw [hdrop, hget]

theorem validDraws_images_disjoint (m : Nat) :
    ∀ x ∈ Finset.range (m + 2), ∀ y ∈ Finset.range (m + 2), x ≠ y →
      Disjoint ((validDraws m).image (x :: ·)) ((validDraws m).image (y :: ·)) := by
  intro x _ y _ hxy
  refine Finset.disjoint_left.mpr ?_
  rintro a hax hay
  simp only [Finset.mem_image] at hax hay
  obtain ⟨b1, -, hb1⟩ := hax
  obtain ⟨b2, -, hb2⟩ := hay
  apply hxy
  rw [← hb1] at hb2
  injection hb2 with h1 h2
  exact h1.symm

theorem fyList_filter_card {α : Type} [DecidableEq α] :
    ∀ (m : Nat) (l l' : List α), l.length = m + 1 → l.Nodup → l'.Perm l →
      ((validDraws m).filter (fun js => fyList js l = l')).card = 1 := by
  intro m
  induction m with
  | zero =>
    intro l l' hlen hnd hperm
    obtain ⟨c, rfl⟩ : ∃ c, l = [c] := by
      cases l with
      | nil => simp at hlen
      | cons a t =>
        cases t with
        | nil => exact ⟨a, rfl⟩
        | cons b t2 => simp at hlen
    obtain rfl : l' = [c] := List.perm_singleton.mp hperm
    rw [show validDraws 0 = {([] : List Nat)} from rfl]
    have hfy0 : fyList ([] : List Nat) [c] = [c] := rfl
    rw [Finset.filter_singleton, if_pos hfy0]
    rfl
  | succ m ih =>
    intro l l' hlen hnd hperm
    have hlen2 : l.length = m + 2 := by omega
    have hlen' : l'.length = m + 2 := by rw [hperm.length_eq]; omega
    have hm1 : m + 1 < l'.length := by omega
    set c := l'.get ⟨m + 1, hm1⟩ with hc
    have hcl : c ∈ l := by
      refine hperm.mem_iff.mp ?_
      rw [hc, List.get_eq_getElem]
      exact List.getElem_mem _
    obtain ⟨j0, hj0lt, hj0⟩ := List.mem_iff_getElem.mp hcl
    have hdropl : l'.drop (m + 1) = [c] := by
      rw [List.drop_eq_getElem_cons (by omega), List.drop_eq_nil_of_le (by omega)]
      rw [hc, List.get_eq_getElem]
    have hBdec : l'.take (m + 1) ++ [c] = l' := by
      conv_rhs => rw [← List.take_append_drop (m + 1) l']
      rw [hdropl]
    show ((validDraws (m + 1)).filter (fun js => fyList js l = l')).card = 1
    have hVD : validDraws (m + 1)
        = (Finset.range (m + 2)).biUnion (fun j => (validDraws m).image (j :: ·)) := rfl
    rw [hVD, Finset.filter_biUnion]
    rw [Finset.card_biUnion (fun x hx y hy hxy =>
      Finset.disjoint_filter_filter (validDraws_images_disjoint m x hx y hy hxy))]
    have hkey : ∀ j ∈ Finset.range (m + 2),
        (((validDraws m).image (j :: ·)).filter (fun js => fyList js l = l')).card
          = if j = j0 then 1 else 0 := by
      intro j hjm
      have hjlt : j < m + 2 := Finset.mem_range.mp hjm
      have hjl : j < l.length := by omega
      rw [Finset.filter_image]
      rw [Finset.card_image_of_injective _ List.cons_injective]
      have hswap : listSwap l (m + 1) j
          = (listSwap l (m + 1) j).take (m + 1) ++ [l.get ⟨j, by omega⟩] :=
        listSwap_last l m j hlen2 hjlt
      set A := (listSwap l (m + 1) j).take (m + 1) with hAdef
      have hAlen : A.length = m + 1 := by
        rw [hAdef, List.length_take, listSwap_length, hlen2]
        omega
      have hcond : ∀ tl ∈ validDraws m,
          (fyList (j :: tl) l = l' ↔
            (fyList tl A = l'.take (m + 1) ∧ l.get ⟨j, hjl⟩ = c)) := by
        intro tl htl
        have htlm : tl.length = m := validDraws_length m tl htl
        have hstep : fyList (j :: tl) l = fyList tl (listSwap l (tl.length + 1) j) := rfl
        constructor
        · intro hfy
          rw [hstep, htlm, hswap,
            fyList_append m tl A (l.get ⟨j, by omega⟩) htl (by omega)] at hfy
          have hfy2 : fyList tl A ++ [l.get ⟨j, by omega⟩]
              = l'.take (m + 1) ++ [c] := hfy.trans hBdec.symm
          obtain ⟨h1, h2⟩ := List.append_inj' hfy2 rfl
          refine ⟨h1, ?_⟩
          injection h2 with hx
        · rintro ⟨h1, h2⟩
          rw [hstep, htlm, hswap,
            fyList_append m tl A (l.get ⟨j, by omega⟩) htl (by omega), h1, h2, hBdec]
      rw [Finset.filter_congr hcond]
      by_cases hjj : j = j0
      · subst hjj
        have hgetc : l.get ⟨j, hjl⟩ = c := by
          rw [List.get_eq_getElem]
          exact hj0
        have hA2 : A ++ [c] = listSwap l (m + 1) j := by
          rw [hswap]
          rw [show l.get ⟨j, by omega⟩ = c from hgetc]
        have hAnd : A.Nodup := by
          have hswnd : (listSwap l (m + 1) j).Nodup :=
            ((listSwap_perm l (m + 1) j).nodup_iff).mpr hnd
          rw [hAdef]
          exact List.Nodup.sublist (List.take_sublist _ _) hswnd
        have hBA : (l'.take (m + 1)).Perm A := by
          have hperm2 : (l'.take (m + 1) ++ [c]).Perm (A ++ [c]) := by
            rw [hBdec, hA2]
            exact hperm.trans (listSwap_perm l (m + 1) j).symm
          have p1 : (c :: l'.take (m + 1)).Perm (l'.take (m + 1) ++ [c]) :=
            (List.perm_append_singleton c _).symm
          have p3 : (A ++ [c]).Perm (c :: A) := List.perm_append_singleton c A
          exact ((p1.trans hperm2).trans p3).cons_inv
        have hsimp : ∀ tl ∈ validDraws m,
            ((fyList tl A = l'.take (m + 1) ∧ l.get ⟨j, hjl⟩ = c) ↔
              fyList tl A = l'.take (m + 1)) :=
          fun tl _ => ⟨fun h => h.1, fun h => ⟨h, hgetc⟩⟩
        rw [Finset.filter_congr hsimp, if_pos rfl]
        exact ih A (l'.take (m + 1)) hAlen hAnd hBA
      · rw [if_neg hjj]
        have hempty : (validDraws m).filter
            (fun tl => fyList tl A = l'.take (m + 1) ∧ l.get ⟨j, hjl⟩ = c) = ∅ := by
          refine Finset.filter_eq_empty_iff.mpr ?_
          rintro tl htl ⟨h1, h2⟩
          apply hjj
          rw [List.get_eq_getElem] at h2
          rw [← hj0] at h2
          exact (List.Nodup.getElem_inj_iff hnd).mp h2
        rw [hempty, Finset.card_empty]
    rw [Finset.sum_congr rfl hkey]
    rw [Finset.sum_ite_eq' (Finset.range (m + 2)) j0 (fun _ => 1)]
    rw [if_pos (Finset.mem_range.mpr (by omega))]

/-- C7: each question's options are `[decoded correct] ++ decoded
incorrects` passed through the Fisher-Yates shuffle driven by the ambient
draws; the shuffle always returns a permutation of its input; every random
source yields a draw list in `validDraws`, every draw list in `validDraws`
is realized by some source, there are `n!` draw lists for an `n`-element
list, and — for distinct options — each target permutation is produced by
exactly one draw list, so under uniform independent draws every
permutation is equally likely. -/
theorem shuffleArray_uniform :
    (∀ (g : Nat → Nat → Nat) (qs : List QuizQuestion) (i : Nat) (p : ProcessedQuestion),
        (processQuizQuestions g qs)[i]? = some p →
        ∃ q : QuizQuestion, qs[i]? = some q ∧
          p.options = shuffleArray (g i)
            (decodeHtmlEntities q.correct_answer
              :: q.incorrect_answers.map decodeHtmlEntities)) ∧
    (∀ (g : Nat → Nat) (l : List (List Char)), (shuffleArray g l).Perm l) ∧
    (∀ (g : Nat → Nat) (l : List (List Char)),
        shuffleArray g l = fyList (mkDraws g (l.length - 1)) l) ∧
    (∀ (g : Nat → Nat) (m : Nat), mkDraws g m ∈ validDraws m) ∧
    (∀ (m : Nat) (js : List Nat), js ∈ validDraws m →
        mkDraws (fun k => js.getD (m - k) 0) m = js) ∧
    (∀ m : Nat, (validDraws m).card = Nat.factorial (m + 1)) ∧
    (∀ (l l2 : List (List Char)), l.Nodup → l2.Perm l →
        ((validDraws (l.length - 1)).filter
          (fun js => fyList js l = l2)).card = 1) := by
  refine ⟨?_, fun g l => shuffleArray_perm g l, fun g l => rfl,
    fun g m => mkDraws_mem_validDraws g m, mkDraws_surj, validDraws_card, ?_⟩
  · intro g qs i p hp
    rw [processQuizQuestions, List.getElem?_mapIdx] at hp
    cases hq : qs[i]? with
    | none => rw [hq] at hp; exact absurd hp (by simp)
    | some q =>
      rw [hq] at hp
      simp only [Option.map_some', Option.some.injEq] at hp
      exact ⟨q, rfl, by rw [← hp]⟩
  · intro l l2 hnd hperm
    cases l with
    | nil =>
      obtain rfl : l2 = [] := List.perm_nil.mp hperm
      decide
    | cons a t =>
      have hlen : (a :: t).length - 1 = t.length := by simp
      rw [hlen]
      exact fyList_filter_card t.length (a :: t) l2 (by simp) hnd hperm

theorem shuffleArray_uniform_witness :
    ((["a".data, "b".data] : List (List Char)).Nodup ∧
     (["b".data, "a".data] : List (List Char)).Perm ["a".data, "b".data]) ∧
    ((validDraws ((["a".data, "b".data] : List (List Char)).length - 1)).filter
        (fun js => fyList js ["a".data, "b".data] = ["b".data, "a".data])).card = 1 :=
  ⟨⟨by decide, by decide⟩,
    shuffleArray_uniform.2.2.2.2.2.2 ["a".data, "b".data] ["b".data, "a".data]
      (by decide) (by decide)⟩
